import Mathlib

/-!
Verification of the Dintero `money` library (`src/index.ts` and the compiled
`dist` artifact) against its natural-language specification.

The decimal value engine is `big.js`: an arbitrary-precision signed decimal.
We embed big.js values shallowly as rationals (every big.js value is a
rational with a power-of-ten denominator), and big.js operations as exact
rational arithmetic plus explicit rounding:
  * `plus`/`minus`/`times` are exact;
  * `div` rounds the exact quotient to `Big.DP = 20` decimal places with the
    global rounding mode `Big.RM = 1` (round-half-away-from-zero);
  * `round(dp, rm)` rounds to `dp` decimal places under the given mode,
    defaulting to `Big.RM = 1` when the mode is omitted;
  * `toFixed(dp)` renders the value rounded (with `Big.RM`) to `dp` decimal
    places, zero-padded.
JavaScript exceptions are embedded as `Option.none`.
-/

namespace DinteroMoney

/-- Ten to the `d`-th power, as a rational. -/
def pow10 (d : ℕ) : ℚ := 10 ^ d

/-- big.js rounding modes: `0` RoundDown (truncate toward zero), `1`
RoundHalfUp (round half away from zero — the big.js default `Big.RM`),
`2` RoundHalfEven, `3` RoundUp (away from zero). -/
inductive RM where
  | down
  | halfUp
  | halfEven
  | up
deriving DecidableEq

/-- Rounding a rational to an integer under each big.js mode. -/
def roundInt : RM → ℚ → ℤ
  | .down, q => if 0 ≤ q then ⌊q⌋ else ⌈q⌉
  | .halfUp, q => if 0 ≤ q then ⌊q + 1 / 2⌋ else ⌈q - 1 / 2⌉
  | .halfEven, q =>
      if q - ⌊q⌋ < 1 / 2 then ⌊q⌋
      else if 1 / 2 < q - ⌊q⌋ then ⌊q⌋ + 1
      else if Even ⌊q⌋ then ⌊q⌋ else ⌊q⌋ + 1
  | .up, q => if 0 ≤ q then ⌈q⌉ else ⌊q⌋

/-- big.js `x.round(dp, rm)`: round to `dp` decimal places under mode `rm`. -/
def bigRound (q : ℚ) (dp : ℕ) (rm : RM) : ℚ :=
  (roundInt rm (q * pow10 dp) : ℚ) / pow10 dp

/-- big.js `a.div(b)`: the exact quotient rounded to `Big.DP = 20` decimal
places with the default mode `Big.RM = 1` (half away from zero). -/
def bigDiv (a b : ℚ) : ℚ := bigRound (a / b) 20 .halfUp

/-- `q` is representable with at most `d` decimal places. -/
def isDecimal (q : ℚ) (d : ℕ) : Prop := ∃ n : ℤ, q = (n : ℚ) / pow10 d

/-- The tag bag carried by a `Money`: the three named defaults plus an
open-ended list of extra keys (values modelled opaquely as strings). -/
structure Tags where
  includesVat : Bool
  isVat : Bool
  isPrice : Bool
  extra : List (String × String)
deriving DecidableEq

/-- The default tag bag `{ includesVat: false, isPrice: false, isVat: false }`. -/
def defaultTags : Tags := ⟨false, false, false, []⟩

/-- Minor-unit digits of a currency code. Modelled from the spec: the
`currency-codes` package is an external resolver (spec §6); we tabulate the
ISO 4217 digits for the codes exercised by the repository. -/
def currencyDigits : String → Option ℕ
  | "NOK" => some 2
  | "SEK" => some 2
  | "EUR" => some 2
  | "USD" => some 2
  | "JPY" => some 0
  | "BHD" => some 3
  | _ => none

/-- `currencyToDecimals` from `src/index.ts`: resolver lookup, with the
sentinel `UNKNOWN` mapping to 2; unsupported codes throw (`none`). -/
def currencyToDecimals (c : String) : Option ℕ :=
  match currencyDigits c with
  | some d => some d
  | none => if c = "UNKNOWN" then some 2 else none

/-- `data.decimals ?? currencyToDecimals(data.currency)` from the constructor. -/
def resolveDecimals (decimals : Option ℕ) (currency : String) : Option ℕ :=
  match decimals with
  | some d => some d
  | none => currencyToDecimals currency

/-- The constructor input `MoneyInputData` (with the tag spread over the
defaults already applied). -/
structure MoneyData where
  amount : ℚ
  currency : String
  decimals : Option ℕ
  roundingMode : Option RM
  tags : Tags
deriving DecidableEq

/-- The frozen `_data` of a constructed `Money`.  As in the source, `decimals`
stores the constructor's optional override, not the resolved scale. -/
structure Money where
  amount : ℚ
  currency : String
  decimals : Option ℕ
  roundingMode : Option RM
  tags : Tags
deriving DecidableEq

/-- The `Money` constructor: resolves the scale (throwing — `none` — when no
override is given and the currency is unsupported) and immediately rounds the
amount to it, `amount.round(decimals, data.roundingMode)`; an omitted rounding
mode means big.js uses `Big.RM = 1`, half away from zero. -/
def Money.make (data : MoneyData) : Option Money :=
  (resolveDecimals data.decimals data.currency).map fun d =>
    { amount := bigRound data.amount d (data.roundingMode.getD .halfUp)
      currency := data.currency
      decimals := data.decimals
      roundingMode := data.roundingMode
      tags := data.tags }

/-- Re-read a `Money`'s frozen `_data` (for the `merge` spread). -/
def Money.toData (m : Money) : MoneyData :=
  ⟨m.amount, m.currency, m.decimals, m.roundingMode, m.tags⟩

/-- `getDecimals()`: the explicit override, or the currency's scale.  On a
constructed `Money` the resolver never fails; the `0` fallback is junk for
unreachable records. -/
def Money.getDecimals (m : Money) : ℕ :=
  m.decimals.getD ((currencyToDecimals m.currency).getD 0)

/-- A record on which `getDecimals` is meaningful: the scale resolves.  Every
`Money` produced by the constructor satisfies this. -/
def Money.wf (m : Money) : Prop :=
  (resolveDecimals m.decimals m.currency).isSome = true

/-- `merge({ amount })`: rebuild through the constructor with a new amount. -/
def Money.mergeAmount (m : Money) (a : ℚ) : Option Money :=
  Money.make { m.toData with amount := a }

/-- `add`: asserts equal currencies, then merges the exact sum. -/
def Money.add (m₁ m₂ : Money) : Option Money :=
  if m₂.currency = m₁.currency then m₁.mergeAmount (m₁.amount + m₂.amount) else none

/-- `subtract`: asserts equal currencies, then merges the exact difference. -/
def Money.subtract (m₁ m₂ : Money) : Option Money :=
  if m₂.currency = m₁.currency then m₁.mergeAmount (m₁.amount - m₂.amount) else none

/-- `multiply`: exact product, then merge (which re-rounds to the scale). -/
def Money.multiply (m : Money) (f : ℚ) : Option Money :=
  m.mergeAmount (m.amount * f)

/-- `divide`: big.js 20-decimal-place division, then merge.  big.js throws on
a zero divisor. -/
def Money.divide (m : Money) (x : ℚ) : Option Money :=
  if x = 0 then none else m.mergeAmount (bigDiv m.amount x)

/-- `abs`. -/
def Money.abs (m : Money) : Option Money :=
  m.mergeAmount |m.amount|

/-- `round(decimals, roundingMode)`: rounds with the explicit mode, else the
money's own mode, else big.js's default; then merges (the merge re-rounds at
the money's scale). -/
def Money.round (m : Money) (dp : ℕ) (rm : Option RM) : Option Money :=
  m.mergeAmount (bigRound m.amount dp (((rm.orElse fun _ => m.roundingMode)).getD .halfUp))

/-- `setDecimals`. -/
def Money.setDecimals (m : Money) (d : ℕ) : Option Money :=
  Money.make { m.toData with decimals := some d }

/-- `resetDecimals`. -/
def Money.resetDecimals (m : Money) : Option Money :=
  Money.make { m.toData with decimals := none }

/-- `toCurrency(currency, rate, unit)`: multiplies and divides the stored
(unrounded-to-destination) amount outside of `Money`, then constructs in the
new currency — a single construction-time rounding. -/
def Money.toCurrency (m : Money) (c : String) (rate unit : ℚ) : Option Money :=
  if unit = 0 then none
  else Money.make { m.toData with amount := bigDiv (m.amount * rate) unit, currency := c }

/-- `equals`: currency codes and numeric values agree; total, never throws. -/
def Money.equals (m₁ m₂ : Money) : Bool :=
  decide (m₁.currency = m₂.currency) && decide (m₁.amount = m₂.amount)

/-- `Money.compare`: asserts equal currencies, then big.js `cmp` (−1/0/1). -/
def Money.compare (m₁ m₂ : Money) : Option ℤ :=
  if m₂.currency = m₁.currency then
    some (if m₁.amount < m₂.amount then -1 else if m₂.amount < m₁.amount then 1 else 0)
  else none

/-- `greaterThan`: asserts equal currencies first. -/
def Money.greaterThan (m₁ m₂ : Money) : Option Bool :=
  if m₂.currency = m₁.currency then some (decide (m₂.amount < m₁.amount)) else none

/-- `greaterThanOrEqual`. -/
def Money.greaterThanOrEqual (m₁ m₂ : Money) : Option Bool :=
  if m₂.currency = m₁.currency then some (decide (m₂.amount ≤ m₁.amount)) else none

/-- `lessThan`. -/
def Money.lessThan (m₁ m₂ : Money) : Option Bool :=
  if m₂.currency = m₁.currency then some (decide (m₁.amount < m₂.amount)) else none

/-- `lessThanOrEqual`. -/
def Money.lessThanOrEqual (m₁ m₂ : Money) : Option Bool :=
  if m₂.currency = m₁.currency then some (decide (m₁.amount ≤ m₂.amount)) else none

/-- `isZero`. -/
def Money.isZero (m : Money) : Bool := decide (m.amount = 0)

/-- `isPositive` (positive and not 0). -/
def Money.isPositive (m : Money) : Bool := decide (0 < m.amount)

/-- `isNegative` (negative and not 0). -/
def Money.isNegative (m : Money) : Bool := decide (m.amount < 0)

/-- Left-pad a digit string with zeros to the given length. -/
def padZeros (s : String) (len : ℕ) : String :=
  String.mk (List.replicate (len - s.length) '0') ++ s

/-- Fixed-point rendering of a natural `v` scaled by `10^d`. -/
def natFixed (v : ℕ) (d : ℕ) : String :=
  if d = 0 then Nat.repr v
  else Nat.repr (v / 10 ^ d) ++ "." ++ padZeros (Nat.repr (v % 10 ^ d)) d

/-- big.js `toFixed(d)`: round (with `Big.RM`) to `d` decimal places and
render zero-padded. -/
def ratToFixed (q : ℚ) (d : ℕ) : String :=
  let n := roundInt .halfUp (q * pow10 d)
  if n < 0 then "-" ++ natFixed n.natAbs d else natFixed n.natAbs d

/-- `toString()`: the amount rendered via `toFixed(getDecimals())`. -/
def Money.toString (m : Money) : String := ratToFixed m.amount m.getDecimals

/-- `toNumber()`: render to string, convert through the native float type,
rebuild a `Money` from the float, and fail unless the rebuilt string matches.
The composite `str ↦ Big(Number(str))` (an IEEE-754 round trip) is external
to the decimal engine and is abstracted as the parameter `f`. -/
def Money.toNumberWith (f : String → ℚ) (m : Money) : Option ℚ :=
  let s := m.toString
  let num := f s
  match m.mergeAmount num with
  | none => none
  | some m2 => if s = m2.toString then some num else none

/-- `Money.sum(moneys, currency)`: empty list needs a currency (0 in that
currency, default options); otherwise fold `add` from the first element. -/
def Money.sum (l : List Money) (c : String) : Option Money :=
  match l with
  | [] => Money.make { amount := 0, currency := c, decimals := none, roundingMode := none, tags := defaultTags }
  | h :: t => t.foldlM (fun acc x => acc.add x) h

/-- The shared front of `distributeBy` (both the TypeScript source and the
compiled dist variant agree on it): reject a negative weight, reject a
non-positive total, compute the provisional rounded parts, the exact `rest`,
and the signed smallest unit `1/10^decimals`. -/
def Money.distributePre (m : Money) (ws : List ℚ) : Option (List Money × Money × Money) :=
  if ws.any fun w => decide (w < 0) then none
  else
    let tot := ws.foldl (· + ·) 0
    if tot ≤ 0 then none
    else do
      let parts ← ws.mapM fun w => m.multiply (bigDiv w tot)
      let s ← Money.sum parts m.currency
      let rest ← m.subtract s
      let one ← m.mergeAmount 1
      let base ← one.divide (pow10 m.getDecimals)
      let u ← base.multiply (if rest.isPositive then 1 else -1)
      some (parts, rest, u)

/-- The reconciliation loop of the compiled dist artifact
(`src/unnamed/part_000`, lines 365–372): while `rest` is non-zero, skip
zero-weight indices, otherwise move one `u` from `rest` into the current
part; the index wraps modulo the length.  `fuel` bounds the number of
iterations still taken (`none` = exhausted); the second result counts the
unit-correction steps performed. -/
def loopDist (ws : List ℚ) (u : Money) :
    ℕ → List Money → Money → ℕ → ℕ → Option (List Money × ℕ)
  | 0, _, _, _, _ => none
  | fuel + 1, parts, rest, i, steps =>
    if rest.isZero then some (parts, steps)
    else
      match ws[i]?, parts[i]? with
      | some w, some p =>
        if w = 0 then loopDist ws u fuel parts rest ((i + 1) % ws.length) steps
        else
          match p.add u, rest.subtract u with
          | some p2, some rest2 =>
              loopDist ws u fuel (parts.set i p2) rest2 ((i + 1) % ws.length) (steps + 1)
          | _, _ => none
      | _, _ => none

/-- The reconciliation loop of `src/src/index.ts` (lines 443–448): no
zero-weight guard, and the index `i++` never wraps, so once `i` runs past
the end the JavaScript `parts[i].add` throws on `undefined` (`none` here). -/
def loopSrc (u : Money) :
    ℕ → List Money → Money → ℕ → ℕ → Option (List Money × ℕ)
  | 0, _, _, _, _ => none
  | fuel + 1, parts, rest, i, steps =>
    if rest.isZero then some (parts, steps)
    else
      match parts[i]? with
      | some p =>
        match p.add u, rest.subtract u with
        | some p2, some rest2 => loopSrc u fuel (parts.set i p2) rest2 (i + 1) (steps + 1)
        | _, _ => none
      | none => none

/-- `distributeBy` as shipped in the compiled dist artifact (zero-weight
guard, wrapping index). -/
def Money.distributeBy (fuel : ℕ) (m : Money) (ws : List ℚ) : Option (List Money × ℕ) :=
  match m.distributePre ws with
  | none => none
  | some (parts, rest, u) => loopDist ws u fuel parts rest 0 0

/-- `distributeBy` as written in `src/src/index.ts` (no zero-weight guard,
non-wrapping index). -/
def Money.distributeBySrc (fuel : ℕ) (m : Money) (ws : List ℚ) : Option (List Money × ℕ) :=
  match m.distributePre ws with
  | none => none
  | some (parts, rest, u) => loopSrc u fuel parts rest 0 0

/-- `distribute(n)`: equal weights.  The source first rejects a non-whole
`n`; the count is a natural number here. -/
def Money.distribute (fuel : ℕ) (m : Money) (n : ℕ) : Option (List Money × ℕ) :=
  m.distributeBy fuel (List.replicate n 1)

/-- `percentToMultiplier`: `(percent + 100) / 100` via big.js `add`/`div`. -/
def percentToMultiplier (p : ℚ) : ℚ := bigDiv (p + 100) 100

/-- `percentToRate`: `percent / 100` via big.js `div`. -/
def percentToRate (p : ℚ) : ℚ := bigDiv p 100

/-- `setTag('includesVat', v)`: rebuild through the constructor with the tag
bag updated. -/
def Money.setTagIncludesVat (m : Money) (v : Bool) : Option Money :=
  Money.make { m.toData with tags := { m.tags with includesVat := v } }

/-- `setTag('isVat', v)`. -/
def Money.setTagIsVat (m : Money) (v : Bool) : Option Money :=
  Money.make { m.toData with tags := { m.tags with isVat := v } }

/-- `addVat`. -/
def Money.addVat (m : Money) (p : ℚ) : Option Money :=
  (m.multiply (percentToMultiplier p)).bind fun x => x.setTagIncludesVat true

/-- `removeVat`. -/
def Money.removeVat (m : Money) (p : ℚ) : Option Money :=
  (m.divide (percentToMultiplier p)).bind fun x => x.setTagIncludesVat false

/-- `getVat(vatPercentage, includesVat?)`: when the `includesVat` argument is
omitted the money's own `includesVat` tag decides whether VAT is first
removed. -/
def Money.getVat (m : Money) (p : ℚ) (includesVat : Option Bool) : Option Money :=
  (if includesVat.getD m.tags.includesVat then m.removeVat p else some m).bind fun w =>
    (w.multiply (percentToRate p)).bind fun x => x.setTagIsVat true

/-- Replace a money's tag bag, keeping every numeric field: the generic form
of two `Money`s that "differ only in their tags". -/
def retag (t : Tags) (m : Money) : Money := { m with tags := t }

/-- The provisional part for weight `w` in `distributeBy`:
`round(A * (w.div(tot)), d)` with the default rounding mode. -/
def partQ (A : ℚ) (d : ℕ) (tot : ℚ) (w : ℚ) : ℚ := bigRound (A * bigDiv w tot) d .halfUp

/-- The invariant carried by every money flowing through `distributeBy`:
well-formed, in currency `C`, at scale `d`, with an amount that is exactly a
`d`-decimal. -/
def MState (C : String) (d : ℕ) (x : Money) : Prop :=
  x.wf ∧ x.currency = C ∧ x.getDecimals = d ∧ isDecimal x.amount d

/-! ## Basic lemmas about the rounding primitives -/

theorem pow10_pos (d : ℕ) : 0 < pow10 d := by
  unfold pow10; positivity

theorem pow10_ne_zero (d : ℕ) : pow10 d ≠ 0 := ne_of_gt (pow10_pos d)

theorem roundInt_intCast (rm : RM) (n : ℤ) : roundInt rm (n : ℚ) = n := by
  have h0 : (⌊(1 / 2 : ℚ)⌋ : ℤ) = 0 := by norm_num
  have h1 : (⌈(-(1 / 2) : ℚ)⌉ : ℤ) = 0 := by
    rw [Int.ceil_eq_iff]
    norm_num
  cases rm with
  | down => simp [roundInt]
  | halfUp =>
      rcases le_or_lt 0 (n : ℚ) with h | h
      · simp only [roundInt, if_pos h]
        rw [Int.floor_int_add, h0, add_zero]
      · simp only [roundInt, if_neg (not_le.mpr h), sub_eq_add_neg]
        rw [add_comm, Int.ceil_add_int, h1, zero_add]
  | halfEven =>
      have : ((n : ℚ) - ⌊(n : ℚ)⌋ : ℚ) = 0 := by simp
      simp [roundInt, this]
  | up => simp [roundInt]

theorem bigRound_isDecimal (q : ℚ) (dp : ℕ) (rm : RM) : isDecimal (bigRound q dp rm) dp :=
  ⟨roundInt rm (q * pow10 dp), rfl⟩

theorem isDecimal.mul_pow10 {q : ℚ} {d : ℕ} (h : isDecimal q d) : ∃ n : ℤ, q * pow10 d = n := by
  obtain ⟨n, rfl⟩ := h
  exact ⟨n, div_mul_cancel₀ _ (pow10_ne_zero d)⟩

theorem isDecimal.bigRound_eq {q : ℚ} {d : ℕ} (h : isDecimal q d) (rm : RM) :
    bigRound q d rm = q := by
  obtain ⟨n, hn⟩ := h.mul_pow10
  have hq : q = (n : ℚ) / pow10 d := by
    field_simp [pow10_ne_zero d] at hn ⊢
    linarith [hn]
  rw [bigRound, hn, roundInt_intCast, ← hq]

theorem isDecimal_intCast (n : ℤ) (d : ℕ) : isDecimal (n : ℚ) d := by
  refine ⟨n * 10 ^ d, ?_⟩
  rw [pow10]
  push_cast
  field_simp

theorem isDecimal_zero (d : ℕ) : isDecimal 0 d := by
  simpa using isDecimal_intCast 0 d

theorem isDecimal_one (d : ℕ) : isDecimal 1 d := by
  simpa using isDecimal_intCast 1 d

theorem isDecimal.add {a b : ℚ} {d : ℕ} (ha : isDecimal a d) (hb : isDecimal b d) :
    isDecimal (a + b) d := by
  obtain ⟨n, rfl⟩ := ha
  obtain ⟨k, rfl⟩ := hb
  exact ⟨n + k, by push_cast; ring⟩

theorem isDecimal.neg {a : ℚ} {d : ℕ} (ha : isDecimal a d) : isDecimal (-a) d := by
  obtain ⟨n, rfl⟩ := ha
  exact ⟨-n, by push_cast; ring⟩

theorem isDecimal.sub {a b : ℚ} {d : ℕ} (ha : isDecimal a d) (hb : isDecimal b d) :
    isDecimal (a - b) d := by
  simpa [sub_eq_add_neg] using ha.add hb.neg

theorem isDecimal.abs {a : ℚ} {d : ℕ} (ha : isDecimal a d) : isDecimal |a| d := by
  rcases abs_cases a with ⟨h, _⟩ | ⟨h, _⟩
  · rwa [h]
  · rw [h]; exact ha.neg

theorem isDecimal_unit (d : ℕ) : isDecimal (1 / pow10 d) d := ⟨1, by norm_num⟩

theorem isDecimal.mono {a : ℚ} {d d' : ℕ} (hd : d ≤ d') (ha : isDecimal a d) :
    isDecimal a d' := by
  obtain ⟨n, rfl⟩ := ha
  refine ⟨n * 10 ^ (d' - d), ?_⟩
  have hsplit : pow10 d' = pow10 d * 10 ^ (d' - d) := by
    rw [pow10, pow10, ← pow_add]
    congr 1
    omega
  rw [hsplit]
  push_cast
  rw [mul_div_mul_right _ _ (by positivity : ((10 : ℚ)) ^ (d' - d) ≠ 0)]

theorem abs_roundInt_halfUp_sub_le (q : ℚ) : |(roundInt .halfUp q : ℚ) - q| ≤ 1 / 2 := by
  rcases le_or_lt 0 q with h | h
  · simp only [roundInt, if_pos h]
    rw [abs_le]
    constructor
    · have := Int.lt_floor_add_one (q + 1 / 2)
      linarith
    · have := Int.floor_le (q + 1 / 2)
      linarith
  · simp only [roundInt, if_neg (not_le.mpr h)]
    rw [abs_le]
    constructor
    · have := Int.le_ceil (q - 1 / 2)
      linarith
    · have := Int.ceil_lt_add_one (q - 1 / 2)
      linarith

theorem abs_bigRound_halfUp_sub_le (q : ℚ) (d : ℕ) :
    |bigRound q d .halfUp - q| ≤ 1 / (2 * pow10 d) := by
  have hp := pow10_pos d
  have hb := abs_roundInt_halfUp_sub_le (q * pow10 d)
  have key : bigRound q d .halfUp - q
      = ((roundInt .halfUp (q * pow10 d) : ℚ) - q * pow10 d) / pow10 d := by
    rw [bigRound, sub_div]
    congr 1
    rw [mul_div_cancel_right₀ _ (pow10_ne_zero d)]
  rw [key, abs_div, abs_of_pos hp, div_le_div_iff₀ hp (by positivity)]
  nlinarith [hb, hp]

/-! ## Structural lemmas about construction and merging -/

theorem Money.wf_resolve {m : Money} (h : m.wf) :
    resolveDecimals m.decimals m.currency = some m.getDecimals := by
  unfold Money.wf at h
  unfold Money.getDecimals
  cases hd : m.decimals with
  | some d => simp [resolveDecimals, hd]
  | none =>
      rw [hd] at h
      simp only [resolveDecimals] at h ⊢
      obtain ⟨d, hcd⟩ := Option.isSome_iff_exists.mp h
      simp [hcd]

theorem Money.make_resolved {data : MoneyData} {d : ℕ}
    (h : resolveDecimals data.decimals data.currency = some d) :
    Money.make data = some
      { amount := bigRound data.amount d (data.roundingMode.getD .halfUp)
        currency := data.currency
        decimals := data.decimals
        roundingMode := data.roundingMode
        tags := data.tags } := by
  rw [Money.make, h]
  rfl

theorem Money.make_spec {data : MoneyData} {m : Money} (h : Money.make data = some m) :
    m.currency = data.currency ∧ m.decimals = data.decimals ∧
    m.roundingMode = data.roundingMode ∧ m.tags = data.tags ∧ m.wf ∧
    resolveDecimals data.decimals data.currency = some m.getDecimals ∧
    m.amount = bigRound data.amount m.getDecimals (data.roundingMode.getD .halfUp) := by
  rw [Money.make] at h
  cases hr : resolveDecimals data.decimals data.currency with
  | none => rw [hr] at h; simp at h
  | some d =>
      rw [hr] at h
      simp only [Option.map_some', Option.some.injEq] at h
      subst h
      have hg : Money.getDecimals
          { amount := bigRound data.amount d (data.roundingMode.getD .halfUp)
            currency := data.currency
            decimals := data.decimals
            roundingMode := data.roundingMode
            tags := data.tags } = d := by
        unfold Money.getDecimals
        cases hdec : data.decimals with
        | some k =>
            rw [hdec] at hr
            simp only [resolveDecimals, Option.some.injEq] at hr
            simp [hr]
        | none =>
            rw [hdec] at hr
            simp only [resolveDecimals] at hr
            simp [hr]
      refine ⟨rfl, rfl, rfl, rfl, ?_, ?_, ?_⟩
      · unfold Money.wf
        simp [hr]
      · rw [hg]
      · rw [hg]

theorem Money.isDecimal_of_make {data : MoneyData} {m : Money}
    (h : Money.make data = some m) : isDecimal m.amount m.getDecimals := by
  obtain ⟨-, -, -, -, -, -, ha⟩ := Money.make_spec h
  rw [ha]
  exact bigRound_isDecimal _ _ _

theorem Money.mergeAmount_eq {m : Money} (h : m.wf) (a : ℚ) :
    m.mergeAmount a = some
      { m with amount := bigRound a m.getDecimals (m.roundingMode.getD .halfUp) } := by
  have h2 : resolveDecimals m.toData.decimals m.toData.currency = some m.getDecimals :=
    m.wf_resolve h
  exact Money.make_resolved h2

theorem Money.getDecimals_update (m : Money) (a : ℚ) :
    Money.getDecimals { m with amount := a } = m.getDecimals := rfl

theorem Money.wf_update {m : Money} (a : ℚ) (h : m.wf) :
    Money.wf { m with amount := a } := h

/-! ## Claim C3: default rounding is half-away-from-zero -/

/-- Claim C3: rounding uses round-half-away-from-zero by default: with the
default rounding mode, `-1.5` rounds to `-2` and `1.5` rounds to `2` at 0
decimals, both at construction and via the `round` operation; and every
construction without an explicit mode rounds with half-away-from-zero. -/
theorem claim_C3 :
    ((Money.make ⟨-3/2, "UNKNOWN", some 0, none, defaultTags⟩).map Money.amount = some (-2)) ∧
    ((Money.make ⟨3/2, "UNKNOWN", some 0, none, defaultTags⟩).map Money.amount = some 2) ∧
    (((Money.make ⟨-3/2, "NOK", none, none, defaultTags⟩).bind fun m =>
        (m.round 0 none).map Money.amount) = some (-2)) ∧
    (((Money.make ⟨3/2, "NOK", none, none, defaultTags⟩).bind fun m =>
        (m.round 0 none).map Money.amount) = some 2) ∧
    (∀ (a : ℚ) (cur : String) (dec : Option ℕ) (t : Tags),
      (Money.make ⟨a, cur, dec, none, t⟩).map Money.amount =
        (resolveDecimals dec cur).map fun d => bigRound a d .halfUp) := by
  refine ⟨?_, ?_, ?_, ?_, ?_⟩
  · with_unfolding_all decide
  · with_unfolding_all decide
  · with_unfolding_all decide
  · with_unfolding_all decide
  · intro a cur dec t
    rw [Money.make]
    cases resolveDecimals dec cur <;> rfl

/-! ## Claim C4: amounts always carry at most `getDecimals` fractional digits -/

theorem Money.isDecimal_of_mergeAmount {m : Money} {a : ℚ} {m' : Money}
    (h : m.mergeAmount a = some m') : isDecimal m'.amount m'.getDecimals :=
  Money.isDecimal_of_make h

/-- Claim C4: construction immediately rounds to the resolved scale, and every
transforming operation returns a money whose amount has at most
`getDecimals()` fractional digits — no reachable money holds more precision
than its declared scale. -/
theorem claim_C4 :
    (∀ data m, Money.make data = some m →
      m.amount = bigRound data.amount m.getDecimals (data.roundingMode.getD .halfUp) ∧
      isDecimal m.amount m.getDecimals) ∧
    (∀ m₁ m₂ m', Money.add m₁ m₂ = some m' → isDecimal m'.amount m'.getDecimals) ∧
    (∀ m₁ m₂ m', Money.subtract m₁ m₂ = some m' → isDecimal m'.amount m'.getDecimals) ∧
    (∀ m f m', Money.multiply m f = some m' → isDecimal m'.amount m'.getDecimals) ∧
    (∀ m x m', Money.divide m x = some m' → isDecimal m'.amount m'.getDecimals) ∧
    (∀ m m', Money.abs m = some m' → isDecimal m'.amount m'.getDecimals) ∧
    (∀ m dp rm m', Money.round m dp rm = some m' → isDecimal m'.amount m'.getDecimals) ∧
    (∀ m d m', Money.setDecimals m d = some m' → isDecimal m'.amount m'.getDecimals) ∧
    (∀ m m', Money.resetDecimals m = some m' → isDecimal m'.amount m'.getDecimals) ∧
    (∀ m c r u m', Money.toCurrency m c r u = some m' → isDecimal m'.amount m'.getDecimals) := by
  refine ⟨?_, ?_, ?_, ?_, ?_, ?_, ?_, ?_, ?_, ?_⟩
  · intro data m h
    obtain ⟨-, -, -, -, -, -, ha⟩ := Money.make_spec h
    exact ⟨ha, ha ▸ bigRound_isDecimal _ _ _⟩
  · intro m₁ m₂ m' h
    rw [Money.add] at h
    split at h
    · exact Money.isDecimal_of_mergeAmount h
    · exact absurd h (by simp)
  · intro m₁ m₂ m' h
    rw [Money.subtract] at h
    split at h
    · exact Money.isDecimal_of_mergeAmount h
    · exact absurd h (by simp)
  · intro m f m' h
    exact Money.isDecimal_of_mergeAmount h
  · intro m x m' h
    rw [Money.divide] at h
    split at h
    · exact absurd h (by simp)
    · exact Money.isDecimal_of_mergeAmount h
  · intro m m' h
    exact Money.isDecimal_of_mergeAmount h
  · intro m dp rm m' h
    exact Money.isDecimal_of_mergeAmount h
  · intro m d m' h
    exact Money.isDecimal_of_make h
  · intro m m' h
    exact Money.isDecimal_of_make h
  · intro m c r u m' h
    rw [Money.toCurrency] at h
    split at h
    · exact absurd h (by simp)
    · exact Money.isDecimal_of_make h

/-- Witness for C4 at a concrete input: `Money.of(0.1, 'NOK')`. -/
theorem claim_C4_witness :
    isDecimal (⟨1/10, "NOK", none, none, defaultTags⟩ : Money).amount
      (⟨1/10, "NOK", none, none, defaultTags⟩ : Money).getDecimals :=
  (claim_C4.1 ⟨1/10, "NOK", none, none, defaultTags⟩ _ (by with_unfolding_all decide)).2

/-! ## Claim C5: binary operations reject mismatched currencies -/

/-- Claim C5: for differing currency codes, `add`, `subtract`, the four order
comparisons and static `compare` all fail (throw) before any arithmetic, and
never coerce one currency into the other. -/
theorem claim_C5 (m₁ m₂ : Money) (h : m₁.currency ≠ m₂.currency) :
    m₁.add m₂ = none ∧ m₁.subtract m₂ = none ∧ m₁.greaterThan m₂ = none ∧
    m₁.greaterThanOrEqual m₂ = none ∧ m₁.lessThan m₂ = none ∧
    m₁.lessThanOrEqual m₂ = none ∧ Money.compare m₁ m₂ = none := by
  have h' : ¬ (m₂.currency = m₁.currency) := fun hc => h hc.symm
  refine ⟨?_, ?_, ?_, ?_, ?_, ?_, ?_⟩ <;>
    simp only [Money.add, Money.subtract, Money.greaterThan, Money.greaterThanOrEqual,
      Money.lessThan, Money.lessThanOrEqual, Money.compare, if_neg h']

/-- Witness for C5: 1 NOK versus 1 JPY. -/
theorem claim_C5_witness :
    (⟨1, "NOK", none, none, defaultTags⟩ : Money).add ⟨1, "JPY", none, none, defaultTags⟩
      = none :=
  (claim_C5 _ _ (by decide)).1

/-! ## Claim C10: `equals` on mismatched currencies is `false`, not an error -/

/-- Claim C10: `equals` across differing currency codes returns `false`
without throwing — it is a total `Bool` function, unlike the other binary
operations, which fail on a currency mismatch. -/
theorem claim_C10 (m₁ m₂ : Money) (h : m₁.currency ≠ m₂.currency) :
    m₁.equals m₂ = false := by
  simp [Money.equals, h]

/-- Witness for C10: 1 NOK versus 1 JPY. -/
theorem claim_C10_witness :
    (⟨1, "NOK", none, none, defaultTags⟩ : Money).equals ⟨1, "JPY", none, none, defaultTags⟩
      = false :=
  claim_C10 _ _ (by decide)

/-! ## Claim C7: addition is exact at fitting scales -/

set_option maxRecDepth 8000 in
/-- Claim C7: on a well-formed money, for addends whose amounts are
representable within the receiver's scale, `add` is the exact decimal sum
(no rounding, no floating-point error), and `0.1 + 0.2` renders as the exact
zero-padded fixed-point string `"0.30"`. -/
theorem claim_C7 :
    (∀ m₁ m₂ : Money, m₁.wf → m₂.currency = m₁.currency →
      isDecimal m₁.amount m₁.getDecimals → isDecimal m₂.amount m₁.getDecimals →
      (m₁.add m₂).map Money.amount = some (m₁.amount + m₂.amount)) ∧
    (((Money.make ⟨1/10, "NOK", none, none, defaultTags⟩).bind fun a =>
        (Money.make ⟨2/10, "NOK", none, none, defaultTags⟩).bind fun b =>
          (a.add b).map Money.toString) = some "0.30") := by
  constructor
  · intro m₁ m₂ hwf hc h1 h2
    rw [Money.add, if_pos hc, Money.mergeAmount_eq hwf]
    simp only [Option.map_some']
    congr 1
    exact (h1.add h2).bigRound_eq _
  · with_unfolding_all decide

/-- Witness for C7: 0.1 NOK + 0.2 NOK is exactly 0.3. -/
theorem claim_C7_witness :
    ((⟨1/10, "NOK", none, none, defaultTags⟩ : Money).add
        ⟨2/10, "NOK", none, none, defaultTags⟩).map Money.amount = some (1/10 + 2/10) :=
  claim_C7.1 _ _ (show (resolveDecimals none "NOK").isSome = true by with_unfolding_all decide)
    (by decide)
    (show isDecimal (1/10 : ℚ) 2 from ⟨10, by norm_num [pow10]⟩)
    (show isDecimal (2/10 : ℚ) 2 from ⟨20, by norm_num [pow10]⟩)

/-! ## Claim C8: `toCurrency` converts before its single rounding -/

set_option maxRecDepth 8000 in
/-- Counterexample to C8 as stated: a money carrying an explicit `decimals`
override (here scale 3 on EUR) converts to NOK *without* being rounded to
NOK's 2-digit scale — the construction rounds to the carried override
instead.  `0.123` stays `0.123`, where rounding to the destination currency's
scale would give `0.12`. -/
theorem claim_C8_counterexample :
    ((Money.toCurrency ⟨123/1000, "EUR", some 3, none, defaultTags⟩ "NOK" 1 1).map
        Money.amount = some (123/1000)) ∧
    currencyToDecimals "NOK" = some 2 ∧
    bigRound (bigDiv ((123/1000) * 1) 1) 2 .halfUp = 12/100 ∧
    (123/1000 : ℚ) ≠ 12/100 := by
  refine ⟨?_, ?_, ?_, ?_⟩ <;> with_unfolding_all decide

/-- Claim C8 (amended): `toCurrency` computes `amount * rate / unit` on the
unrounded stored amount — never rounding to the source currency's scale
first — and rounds exactly once, at construction, to the result's scale:
the destination currency's scale when the money carries no explicit decimals
override (with the override otherwise). -/
theorem claim_C8 (m : Money) (c : String) (rate unit : ℚ) (hu : unit ≠ 0) :
    Money.toCurrency m c rate unit =
      Money.make { amount := bigDiv (m.amount * rate) unit, currency := c,
                   decimals := m.decimals, roundingMode := m.roundingMode,
                   tags := m.tags } ∧
    (∀ dc m', m.decimals = none → currencyToDecimals c = some dc →
      Money.toCurrency m c rate unit = some m' →
      m'.amount = bigRound (bigDiv (m.amount * rate) unit) dc (m.roundingMode.getD .halfUp) ∧
      m'.getDecimals = dc) := by
  have hdef : Money.toCurrency m c rate unit =
      Money.make { amount := bigDiv (m.amount * rate) unit, currency := c,
                   decimals := m.decimals, roundingMode := m.roundingMode,
                   tags := m.tags } := by
    rw [Money.toCurrency, if_neg hu]
    rfl
  refine ⟨hdef, ?_⟩
  intro dc m' hdec hc h
  rw [hdef] at h
  obtain ⟨-, -, -, -, -, hres, ha⟩ := Money.make_spec h
  have hthis : resolveDecimals m.decimals c = some dc := by
    rw [hdec]
    simpa [resolveDecimals] using hc
  have hchain : (some dc : Option ℕ) = some m'.getDecimals := hthis.symm.trans hres
  have hdc : m'.getDecimals = dc := (Option.some_inj.mp hchain).symm
  exact ⟨hdc ▸ ha, hdc⟩

/-- Witness for C8: the repository's own EUR→NOK test vector
(2090.5 EUR at rate 8.61). -/
theorem claim_C8_witness :
    Money.toCurrency ⟨20905/10, "EUR", none, none, defaultTags⟩ "NOK" (861/100) 1 =
      Money.make { amount := bigDiv ((20905/10 : ℚ) * (861/100)) 1, currency := "NOK",
                   decimals := none, roundingMode := none, tags := defaultTags } :=
  (claim_C8 ⟨20905/10, "EUR", none, none, defaultTags⟩ "NOK" (861/100) 1 (by norm_num)).1

/-! ## Claim C6: `toNumber` is validated, not best-effort -/

/-- Claim C6: `toNumber` (with the native-float round trip abstracted as
`f`) fails exactly when the rebuilt money's fixed-point string differs from
the original's, and succeeds returning the converted number exactly when the
strings match. -/
theorem claim_C6 (f : String → ℚ) (m m2 : Money)
    (h : m.mergeAmount (f m.toString) = some m2) :
    (Money.toNumberWith f m = some (f m.toString) ↔ m2.toString = m.toString) ∧
    (Money.toNumberWith f m = none ↔ m2.toString ≠ m.toString) := by
  rw [Money.toNumberWith]
  simp only [h]
  by_cases hs : m.toString = m2.toString
  · simp [if_pos hs, hs.symm]
  · have : ¬ (m2.toString = m.toString) := fun he => hs he.symm
    simp [if_neg hs, this]

/-- Witness for C6: 0.3 NOK with a faithful float round trip succeeds. -/
theorem claim_C6_witness :
    (Money.toNumberWith (fun _ => 3/10) ⟨3/10, "NOK", none, none, defaultTags⟩
        = some ((fun _ : String => (3/10 : ℚ)) (Money.toString ⟨3/10, "NOK", none, none, defaultTags⟩)) ↔
      Money.toString (⟨3/10, "NOK", none, none, defaultTags⟩ : Money)
        = Money.toString (⟨3/10, "NOK", none, none, defaultTags⟩ : Money)) :=
  (claim_C6 (fun _ => 3/10) ⟨3/10, "NOK", none, none, defaultTags⟩
    ⟨3/10, "NOK", none, none, defaultTags⟩ (by with_unfolding_all decide)).1

/-! ## Claim C9: tags and the numeric core -/

theorem mergeAmount_retag (t : Tags) (m : Money) (a : ℚ) :
    (retag t m).mergeAmount a = (m.mergeAmount a).map (retag t) := by
  simp only [Money.mergeAmount, Money.make, Money.toData, retag]
  cases resolveDecimals m.decimals m.currency <;> rfl

theorem add_retag (t : Tags) (m₁ m₂ : Money) :
    (retag t m₁).add m₂ = (m₁.add m₂).map (retag t) := by
  simp only [Money.add, retag]
  by_cases h : m₂.currency = m₁.currency
  · rw [if_pos h, if_pos h]
    exact mergeAmount_retag t m₁ (m₁.amount + m₂.amount)
  · rw [if_neg h, if_neg h]
    rfl

theorem add_snd_retag (t : Tags) (m₁ m₂ : Money) :
    m₁.add (retag t m₂) = m₁.add m₂ := rfl

theorem add_retag₂ (t : Tags) (m₁ m₂ : Money) :
    (retag t m₁).add (retag t m₂) = (m₁.add m₂).map (retag t) :=
  (add_snd_retag t (retag t m₁) m₂).trans (add_retag t m₁ m₂)

theorem subtract_retag (t : Tags) (m₁ m₂ : Money) :
    (retag t m₁).subtract m₂ = (m₁.subtract m₂).map (retag t) := by
  simp only [Money.subtract, retag]
  by_cases h : m₂.currency = m₁.currency
  · rw [if_pos h, if_pos h]
    exact mergeAmount_retag t m₁ (m₁.amount - m₂.amount)
  · rw [if_neg h, if_neg h]
    rfl

theorem subtract_snd_retag (t : Tags) (m₁ m₂ : Money) :
    m₁.subtract (retag t m₂) = m₁.subtract m₂ := rfl

theorem subtract_retag₂ (t : Tags) (m₁ m₂ : Money) :
    (retag t m₁).subtract (retag t m₂) = (m₁.subtract m₂).map (retag t) :=
  (subtract_snd_retag t (retag t m₁) m₂).trans (subtract_retag t m₁ m₂)

theorem multiply_retag (t : Tags) (m : Money) (f : ℚ) :
    (retag t m).multiply f = (m.multiply f).map (retag t) :=
  mergeAmount_retag t m (m.amount * f)

theorem divide_retag (t : Tags) (m : Money) (x : ℚ) :
    (retag t m).divide x = (m.divide x).map (retag t) := by
  simp only [Money.divide, retag]
  by_cases h : x = 0
  · rw [if_pos h, if_pos h]
    rfl
  · rw [if_neg h, if_neg h]
    exact mergeAmount_retag t m (bigDiv m.amount x)

theorem round_retag (t : Tags) (m : Money) (dp : ℕ) (rm : Option RM) :
    (retag t m).round dp rm = (m.round dp rm).map (retag t) :=
  mergeAmount_retag t m _

theorem sum_retag (t : Tags) (c : String) :
    ∀ (h : Money) (tl : List Money),
      Money.sum (retag t h :: tl.map (retag t)) c = (Money.sum (h :: tl) c).map (retag t) := by
  have key : ∀ (tl : List Money) (acc : Money),
      (tl.map (retag t)).foldlM (fun (acc x : Money) => acc.add x) (retag t acc)
        = (tl.foldlM (fun (acc x : Money) => acc.add x) acc).map (retag t) := by
    intro tl
    induction tl with
    | nil => intro acc; rfl
    | cons x tl ih =>
        intro acc
        simp only [List.map_cons, List.foldlM]
        rw [add_retag₂]
        cases h : acc.add x with
        | none => rfl
        | some acc' => simpa using ih acc'
  intro h tl
  simpa only [Money.sum] using key tl h

theorem mapM_map_option {α β : Type} (f : α → Option β) (g : β → β) (l : List α) :
    (l.mapM fun w => (f w).map g) = (l.mapM f).map (List.map g) := by
  induction l with
  | nil => rfl
  | cons x l ih =>
      rw [List.mapM_cons, List.mapM_cons]
      cases hx : f x with
      | none => rfl
      | some y =>
          simp only [Option.map_some', Option.bind_eq_bind, Option.some_bind, ih]
          cases l.mapM f <;> rfl

theorem list_set_map {α β : Type} (g : α → β) :
    ∀ (l : List α) (i : ℕ) (a : α), (l.map g).set i (g a) = (l.set i a).map g := by
  intro l
  induction l with
  | nil => intro i a; rfl
  | cons x l ih =>
      intro i a
      cases i with
      | zero => rfl
      | succ j => simp only [List.map_cons, List.set_cons_succ, ih j a]

theorem loopDist_retag (t : Tags) (ws : List ℚ) (u : Money) :
    ∀ (fuel : ℕ) (parts : List Money) (rest : Money) (i steps : ℕ),
      loopDist ws (retag t u) fuel (parts.map (retag t)) (retag t rest) i steps
        = (loopDist ws u fuel parts rest i steps).map fun r => (r.1.map (retag t), r.2) := by
  intro fuel
  induction fuel with
  | zero => intro parts rest i steps; rfl
  | succ n ih =>
      intro parts rest i steps
      rw [loopDist, loopDist]
      have hz : (retag t rest).isZero = rest.isZero := rfl
      by_cases hzero : rest.isZero
      · simp [hz, hzero]
      · simp only [hz, hzero, if_neg, Bool.false_eq_true, List.getElem?_map]
        cases hw : ws[i]? with
        | none => cases hp : parts[i]? <;> rfl
        | some w =>
            cases hp : parts[i]? with
            | none => rfl
            | some p =>
                simp only [Option.map_some']
                by_cases hw0 : w = 0
                · simp only [if_pos hw0, List.length_map]
                  exact ih parts rest ((i + 1) % ws.length) steps
                · simp only [if_neg hw0]
                  rw [add_retag₂, subtract_retag₂]
                  cases hadd : p.add (u) with
                  | none => rfl
                  | some p2 =>
                      cases hsub : rest.subtract u with
                      | none => rfl
                      | some rest2 =>
                          simp only [Option.map_some', List.length_map]
                          rw [list_set_map]
                          exact ih (parts.set i p2) rest2 ((i + 1) % ws.length) (steps + 1)

theorem mapM_option_length {α β : Type} (f : α → Option β) :
    ∀ {l : List α} {l' : List β}, l.mapM f = some l' → l'.length = l.length := by
  intro l
  induction l with
  | nil => intro l' h; simp only [List.mapM_nil, Option.pure_def, Option.some.injEq] at h; simp [← h]
  | cons x xs ih =>
      intro l' h
      rw [List.mapM_cons] at h
      cases hx : f x with
      | none => rw [hx] at h; simp at h
      | some y =>
          rw [hx] at h
          simp only [Option.bind_eq_bind, Option.some_bind] at h
          cases hxs : xs.mapM f with
          | none => rw [hxs] at h; simp at h
          | some ys =>
              rw [hxs] at h
              simp only [Option.some_bind, Option.pure_def, Option.some.injEq] at h
              subst h
              simp [ih hxs]

theorem distributePre_retag (t : Tags) (m : Money) (ws : List ℚ) :
    (retag t m).distributePre ws
      = (m.distributePre ws).map fun r =>
          (r.1.map (retag t), retag t r.2.1, retag t r.2.2) := by
  simp only [Money.distributePre]
  by_cases hneg : ws.any fun w => decide (w < 0)
  · simp [hneg]
  · simp only [hneg, Bool.false_eq_true, if_neg, if_false]
    by_cases htot : ws.foldl (· + ·) 0 ≤ 0
    · simp [htot]
    · simp only [htot, if_neg, if_false]
      have hmapM : (ws.mapM fun w => (retag t m).multiply (bigDiv w (ws.foldl (· + ·) 0)))
          = (ws.mapM fun w => m.multiply (bigDiv w (ws.foldl (· + ·) 0))).map
              (List.map (retag t)) := by
        have hmul : (fun w => (retag t m).multiply (bigDiv w (ws.foldl (· + ·) 0)))
            = fun w => (m.multiply (bigDiv w (ws.foldl (· + ·) 0))).map (retag t) :=
          funext fun w => multiply_retag t m _
        rw [hmul]
        exact mapM_map_option _ _ ws
      rw [hmapM]
      cases hparts : ws.mapM fun w => m.multiply (bigDiv w (ws.foldl (· + ·) 0)) with
      | none => rfl
      | some parts =>
          simp only [Option.map_some', Option.bind_eq_bind, Option.some_bind]
          have hws : ws ≠ [] := by
            intro h
            rw [h] at htot
            exact htot le_rfl
          cases hp : parts with
          | nil =>
              exfalso
              apply hws
              have := mapM_option_length _ hparts
              rw [hp] at this
              exact List.length_eq_zero.mp this.symm
          | cons p0 ptl =>
              simp only [List.map_cons]
              have hcur : (retag t m).currency = m.currency := rfl
              rw [hcur, sum_retag]
              cases hsum : Money.sum (p0 :: ptl) m.currency with
              | none => rfl
              | some s =>
                  simp only [Option.map_some', Option.some_bind]
                  rw [subtract_retag₂]
                  cases hrest : m.subtract s with
                  | none => rfl
                  | some rest =>
                      simp only [Option.map_some', Option.some_bind]
                      rw [mergeAmount_retag]
                      cases hone : m.mergeAmount 1 with
                      | none => rfl
                      | some one =>
                          simp only [Option.map_some', Option.some_bind]
                          have hdec : (retag t m).getDecimals = m.getDecimals := rfl
                          rw [hdec, divide_retag]
                          cases hbase : one.divide (pow10 m.getDecimals) with
                          | none => rfl
                          | some base =>
                              simp only [Option.map_some', Option.some_bind]
                              have hpos : (retag t rest).isPositive = rest.isPositive := rfl
                              rw [hpos, multiply_retag]
                              cases hu : base.multiply (if rest.isPositive then 1 else -1) with
                              | none => rfl
                              | some u =>
                                  simp only [Option.map_some', Option.some_bind]
                                  rfl

theorem distributeBy_retag (t : Tags) (fuel : ℕ) (m : Money) (ws : List ℚ) :
    (retag t m).distributeBy fuel ws
      = (m.distributeBy fuel ws).map fun r => (r.1.map (retag t), r.2) := by
  rw [Money.distributeBy, Money.distributeBy, distributePre_retag]
  cases h : m.distributePre ws with
  | none => rfl
  | some r =>
      obtain ⟨parts, rest, u⟩ := r
      simp only [Option.map_some']
      exact loopDist_retag t ws u fuel parts rest 0 0

theorem toCurrency_retag (t : Tags) (m : Money) (c : String) (r u : ℚ) :
    (retag t m).toCurrency c r u = (m.toCurrency c r u).map (retag t) := by
  simp only [Money.toCurrency, Money.make, Money.toData, retag]
  by_cases hu : u = 0
  · rw [if_pos hu, if_pos hu]
    rfl
  · rw [if_neg hu, if_neg hu]
    cases resolveDecimals m.decimals c <;> rfl

theorem setTagIncludesVat_retag (t : Tags) (y : Money) (v : Bool) :
    (retag t y).setTagIncludesVat v
      = (y.setTagIncludesVat v).map (retag { t with includesVat := v }) := by
  simp only [Money.setTagIncludesVat, Money.make, Money.toData, retag]
  cases resolveDecimals y.decimals y.currency <;> rfl

theorem setTagIsVat_retag (t : Tags) (y : Money) (v : Bool) :
    (retag t y).setTagIsVat v
      = (y.setTagIsVat v).map (retag { t with isVat := v }) := by
  simp only [Money.setTagIsVat, Money.make, Money.toData, retag]
  cases resolveDecimals y.decimals y.currency <;> rfl

theorem map_retag_amount (t : Tags) (o : Option Money) :
    (o.map (retag t)).map Money.amount = o.map Money.amount := by
  cases o <;> rfl

theorem removeVat_retag (t : Tags) (m : Money) (p : ℚ) :
    (retag t m).removeVat p
      = (m.removeVat p).map (retag { t with includesVat := false }) := by
  rw [Money.removeVat, Money.removeVat, divide_retag]
  cases h : m.divide (percentToMultiplier p) with
  | none => rfl
  | some y =>
      simp only [Option.map_some', Option.bind_eq_bind, Option.some_bind]
      rw [setTagIncludesVat_retag]

theorem addVat_retag (t : Tags) (m : Money) (p : ℚ) :
    (retag t m).addVat p
      = (m.addVat p).map (retag { t with includesVat := true }) := by
  rw [Money.addVat, Money.addVat, multiply_retag]
  cases h : m.multiply (percentToMultiplier p) with
  | none => rfl
  | some y =>
      simp only [Option.map_some', Option.bind_eq_bind, Option.some_bind]
      rw [setTagIncludesVat_retag]

/-- Counterexample to C9 as stated: two moneys identical except for the
`includesVat` tag give different `getVat(25)` amounts (20 versus 25) when the
optional `includesVat` argument is omitted — `getVat` consults the tag. -/
theorem claim_C9_counterexample :
    ((Money.getVat ⟨100, "NOK", none, none, ⟨true, false, false, []⟩⟩ 25 none).map
        Money.amount = some 20) ∧
    ((Money.getVat ⟨100, "NOK", none, none, ⟨false, false, false, []⟩⟩ 25 none).map
        Money.amount = some 25) ∧
    (⟨100, "NOK", none, none, ⟨true, false, false, []⟩⟩ : Money)
      = retag ⟨true, false, false, []⟩ ⟨100, "NOK", none, none, ⟨false, false, false, []⟩⟩ ∧
    (some (20 : ℚ) ≠ some (25 : ℚ)) := by
  refine ⟨?_, ?_, ?_, ?_⟩ <;> with_unfolding_all decide

/-- Claim C9 (amended): tags never influence the numeric result of `add`
(either operand), `subtract`, `multiply`, `divide`, `round`, `toCurrency`,
`compare`, `addVat`, `removeVat`, `distribute`/`distributeBy`, or `getVat`
with its `includesVat` argument passed explicitly.  The one exception forced
by the counterexample is `getVat` with the argument omitted, which reads the
`includesVat` tag, as its documentation states. -/
theorem claim_C9 (m : Money) (t : Tags) :
    (∀ m₂ : Money, ((retag t m).add m₂).map Money.amount = (m.add m₂).map Money.amount) ∧
    (∀ m₂ : Money, (m₂.add (retag t m)).map Money.amount = (m₂.add m).map Money.amount) ∧
    (∀ m₂ : Money, ((retag t m).subtract m₂).map Money.amount
        = (m.subtract m₂).map Money.amount) ∧
    (∀ f, ((retag t m).multiply f).map Money.amount = (m.multiply f).map Money.amount) ∧
    (∀ x, ((retag t m).divide x).map Money.amount = (m.divide x).map Money.amount) ∧
    (∀ dp rm, ((retag t m).round dp rm).map Money.amount = (m.round dp rm).map Money.amount) ∧
    (∀ c r u, ((retag t m).toCurrency c r u).map Money.amount
        = (m.toCurrency c r u).map Money.amount) ∧
    (∀ m₂ : Money, Money.compare (retag t m) m₂ = Money.compare m m₂) ∧
    (∀ p, ((retag t m).addVat p).map Money.amount = (m.addVat p).map Money.amount) ∧
    (∀ p, ((retag t m).removeVat p).map Money.amount = (m.removeVat p).map Money.amount) ∧
    (∀ fuel ws, ((retag t m).distributeBy fuel ws).map (fun r => (r.1.map Money.amount, r.2))
        = (m.distributeBy fuel ws).map fun r => (r.1.map Money.amount, r.2)) ∧
    (∀ fuel n, ((retag t m).distribute fuel n).map (fun r => (r.1.map Money.amount, r.2))
        = (m.distribute fuel n).map fun r => (r.1.map Money.amount, r.2)) ∧
    (∀ p b, ((retag t m).getVat p (some b)).map Money.amount
        = (m.getVat p (some b)).map Money.amount) := by
  have hmapmap : ∀ (t' : Tags) (o : Option Money),
      (o.map (retag t')).map Money.amount = o.map Money.amount := map_retag_amount
  have hdistr : ∀ fuel ws,
      ((retag t m).distributeBy fuel ws).map (fun r => (r.1.map Money.amount, r.2))
        = (m.distributeBy fuel ws).map fun r => (r.1.map Money.amount, r.2) := by
    intro fuel ws
    rw [distributeBy_retag]
    cases h : m.distributeBy fuel ws with
    | none => rfl
    | some r =>
        simp only [Option.map_some']
        congr 1
        rw [List.map_map]
        rfl
  refine ⟨?_, ?_, ?_, ?_, ?_, ?_, ?_, ?_, ?_, ?_, hdistr, ?_, ?_⟩
  · intro m₂
    rw [add_retag, hmapmap]
  · intro m₂
    rw [add_snd_retag]
  · intro m₂
    rw [subtract_retag, hmapmap]
  · intro f
    rw [multiply_retag, hmapmap]
  · intro x
    rw [divide_retag, hmapmap]
  · intro dp rm
    rw [round_retag, hmapmap]
  · intro c r u
    rw [toCurrency_retag, hmapmap]
  · intro m₂
    rfl
  · intro p
    rw [addVat_retag, hmapmap]
  · intro p
    rw [removeVat_retag, hmapmap]
  · intro fuel n
    exact hdistr fuel (List.replicate n 1)
  · intro p b
    rw [Money.getVat, Money.getVat]
    simp only [Option.getD_some]
    cases b with
    | true =>
        rw [if_pos rfl, if_pos rfl, removeVat_retag]
        cases h : m.removeVat p with
        | none => rfl
        | some w =>
            simp only [Option.map_some', Option.bind_eq_bind, Option.some_bind]
            rw [multiply_retag]
            cases h2 : w.multiply (percentToRate p) with
            | none => rfl
            | some x =>
                simp only [Option.map_some', Option.some_bind]
                rw [setTagIsVat_retag, hmapmap]
    | false =>
        rw [if_neg (by simp), if_neg (by simp)]
        simp only [Option.bind_eq_bind, Option.some_bind]
        rw [multiply_retag]
        cases h2 : m.multiply (percentToRate p) with
        | none => rfl
        | some x =>
            simp only [Option.map_some', Option.some_bind]
            rw [setTagIsVat_retag, hmapmap]

/-! ## Claim C2: analysis of the reconciliation loop -/

theorem abs_bigDiv_sub_le (a b : ℚ) : |bigDiv a b - a / b| ≤ 1 / (2 * pow10 20) :=
  abs_bigRound_halfUp_sub_le (a / b) 20

theorem bigDiv_zero_left (b : ℚ) : bigDiv 0 b = 0 := by
  have : (0 : ℚ) / b = 0 := zero_div b
  rw [bigDiv, this]
  exact (isDecimal_zero 20).bigRound_eq _

theorem partQ_zero (A : ℚ) (d : ℕ) (tot : ℚ) : partQ A d tot 0 = 0 := by
  rw [partQ, bigDiv_zero_left, mul_zero]
  exact (isDecimal_zero d).bigRound_eq _

theorem partQ_err (A : ℚ) (d : ℕ) (tot w : ℚ)
    (hA : |A| * pow10 d ≤ pow10 20) :
    |partQ A d tot w - A * (w / tot)| ≤ 1 / pow10 d := by
  have h1 : |partQ A d tot w - A * bigDiv w tot| ≤ 1 / (2 * pow10 d) :=
    abs_bigRound_halfUp_sub_le (A * bigDiv w tot) d
  have h2 : |A * bigDiv w tot - A * (w / tot)| ≤ |A| * (1 / (2 * pow10 20)) := by
    rw [← mul_sub, abs_mul]
    exact mul_le_mul_of_nonneg_left (abs_bigDiv_sub_le w tot) (abs_nonneg A)
  have h3 : |A| * (1 / (2 * pow10 20)) ≤ 1 / (2 * pow10 d) := by
    rw [mul_one_div, div_le_div_iff₀ (mul_pos two_pos (pow10_pos 20))
      (mul_pos two_pos (pow10_pos d))]
    nlinarith [pow10_pos d, pow10_pos 20, abs_nonneg A]
  calc |partQ A d tot w - A * (w / tot)|
      ≤ |partQ A d tot w - A * bigDiv w tot| + |A * bigDiv w tot - A * (w / tot)| :=
        abs_sub_le _ _ _
    _ ≤ 1 / (2 * pow10 d) + 1 / (2 * pow10 d) := add_le_add h1 (le_trans h2 h3)
    _ = 1 / pow10 d := by
        rw [div_add_div_same, div_eq_div_iff (mul_pos two_pos (pow10_pos d)).ne'
          (pow10_pos d).ne']
        ring

theorem foldl_add_init (l : List ℚ) : ∀ a : ℚ, l.foldl (· + ·) a = a + l.sum := by
  induction l with
  | nil => intro a; simp
  | cons x l ih =>
      intro a
      rw [List.foldl_cons, List.sum_cons, ih (a + x)]
      ring

theorem sum_map_err (A : ℚ) (d : ℕ) (tot : ℚ) (hA : |A| * pow10 d ≤ pow10 20) :
    ∀ ws : List ℚ,
      |(ws.map fun w => A * (w / tot)).sum - (ws.map (partQ A d tot)).sum|
        ≤ (ws.countP fun w => decide (w ≠ 0)) * (1 / pow10 d) := by
  intro ws
  induction ws with
  | nil => simp
  | cons w ws ih =>
      rw [List.map_cons, List.map_cons, List.sum_cons, List.sum_cons, List.countP_cons]
      by_cases hw : w = 0
      · have hc : (decide (w ≠ 0)) = false := by simp [hw]
        rw [hc]
        subst hw
        rw [zero_div, mul_zero, partQ_zero, zero_add, zero_add]
        simpa using ih
      · have hc : (decide (w ≠ 0)) = true := by simp [hw]
        rw [hc]
        have tri : |(A * (w / tot) + (ws.map fun w => A * (w / tot)).sum)
            - (partQ A d tot w + (ws.map (partQ A d tot)).sum)|
            ≤ |A * (w / tot) - partQ A d tot w|
              + |(ws.map fun w => A * (w / tot)).sum - (ws.map (partQ A d tot)).sum| := by
          have := abs_add (A * (w / tot) - partQ A d tot w)
            ((ws.map fun w => A * (w / tot)).sum - (ws.map (partQ A d tot)).sum)
          calc |(A * (w / tot) + (ws.map fun w => A * (w / tot)).sum)
              - (partQ A d tot w + (ws.map (partQ A d tot)).sum)|
              = |(A * (w / tot) - partQ A d tot w)
                + ((ws.map fun w => A * (w / tot)).sum - (ws.map (partQ A d tot)).sum)| := by
                congr 1
                ring
            _ ≤ _ := this
        have herr : |A * (w / tot) - partQ A d tot w| ≤ 1 / pow10 d := by
          rw [abs_sub_comm]
          exact partQ_err A d tot w hA
        calc |(A * (w / tot) + (ws.map fun w => A * (w / tot)).sum)
            - (partQ A d tot w + (ws.map (partQ A d tot)).sum)|
            ≤ |A * (w / tot) - partQ A d tot w|
              + |(ws.map fun w => A * (w / tot)).sum - (ws.map (partQ A d tot)).sum| := tri
          _ ≤ 1 / pow10 d + (ws.countP fun w => decide (w ≠ 0)) * (1 / pow10 d) :=
              add_le_add herr ih
          _ = ((ws.countP fun w => decide (w ≠ 0)) + 1 : ℕ) * (1 / pow10 d) := by
              push_cast
              ring

theorem sum_map_mul_left_q (a : ℚ) : ∀ l : List ℚ, (l.map fun w => a * w).sum = a * l.sum := by
  intro l
  induction l with
  | nil => simp
  | cons x l ih => rw [List.map_cons, List.sum_cons, List.sum_cons, ih, mul_add]

theorem sum_map_ideal (A tot : ℚ) (ws : List ℚ) (htot : tot ≠ 0)
    (hw : ws.foldl (· + ·) 0 = tot) :
    (ws.map fun w => A * (w / tot)).sum = A := by
  have hfun : (fun w => A * (w / tot)) = fun w : ℚ => (A / tot) * w := by
    funext w
    ring
  have hsum : ws.sum = tot := by
    rw [← hw, foldl_add_init, zero_add]
  rw [hfun, sum_map_mul_left_q, hsum, div_mul_cancel₀ _ htot]

theorem restQ_bound (A : ℚ) (d : ℕ) (tot : ℚ) (ws : List ℚ)
    (hA : |A| * pow10 d ≤ pow10 20) (htot : tot ≠ 0)
    (hw : ws.foldl (· + ·) 0 = tot) :
    |A - (ws.map (partQ A d tot)).sum|
      ≤ (ws.countP fun w => decide (w ≠ 0)) * (1 / pow10 d) := by
  have := sum_map_err A d tot hA ws
  rwa [sum_map_ideal A tot ws htot hw] at this

theorem MState.mergeAmount_exact {C : String} {d : ℕ} {x : Money} (hx : MState C d x)
    {a : ℚ} (ha : isDecimal a d) :
    x.mergeAmount a = some { x with amount := a } ∧ MState C d { x with amount := a } := by
  obtain ⟨hwf, hc, hd, hdec⟩ := hx
  have := Money.mergeAmount_eq hwf a
  rw [hd] at this
  rw [ha.bigRound_eq] at this
  exact ⟨this, hwf, hc, hd, ha⟩

theorem MState.add_exact {C : String} {d : ℕ} {p u : Money}
    (hp : MState C d p) (hu : MState C d u) :
    p.add u = some { p with amount := p.amount + u.amount } ∧
    MState C d { p with amount := p.amount + u.amount } := by
  have hc : u.currency = p.currency := hu.2.1.trans hp.2.1.symm
  have := hp.mergeAmount_exact (hp.2.2.2.add hu.2.2.2)
  rw [Money.add, if_pos hc]
  exact this

theorem MState.subtract_exact {C : String} {d : ℕ} {p u : Money}
    (hp : MState C d p) (hu : MState C d u) :
    p.subtract u = some { p with amount := p.amount - u.amount } ∧
    MState C d { p with amount := p.amount - u.amount } := by
  have hc : u.currency = p.currency := hu.2.1.trans hp.2.1.symm
  have := hp.mergeAmount_exact (hp.2.2.2.sub hu.2.2.2)
  rw [Money.subtract, if_pos hc]
  exact this

theorem mapM_of_some {α β : Type} (f : α → Option β) (g : α → β)
    (h : ∀ a, f a = some (g a)) : ∀ l : List α, l.mapM f = some (l.map g) := by
  intro l
  induction l with
  | nil => rfl
  | cons x xs ih =>
      rw [List.mapM_cons, h x, ih]
      rfl

theorem sum_state {C : String} {d : ℕ} :
    ∀ (tl : List Money) (acc : Money), MState C d acc → (∀ x ∈ tl, MState C d x) →
      ∃ s, tl.foldlM (fun (acc x : Money) => acc.add x) acc = some s ∧ MState C d s ∧
        s.amount = acc.amount + (tl.map Money.amount).sum := by
  intro tl
  induction tl with
  | nil =>
      intro acc hacc _
      exact ⟨acc, rfl, hacc, by simp⟩
  | cons x xs ih =>
      intro acc hacc hmem
      have hx := hmem x (List.mem_cons_self x xs)
      obtain ⟨hadd, hstate⟩ := hacc.add_exact hx
      obtain ⟨s, hfold, hs, hamount⟩ :=
        ih { acc with amount := acc.amount + x.amount } hstate
          (fun y hy => hmem y (List.mem_cons_of_mem x hy))
      refine ⟨s, ?_, hs, ?_⟩
      · rw [List.foldlM, hadd]
        simpa using hfold
      · rw [hamount, List.map_cons, List.sum_cons]
        ring

theorem distributePre_spec (m : Money) (ws : List ℚ)
    (hwf : m.wf) (hA : isDecimal m.amount m.getDecimals) (hrm : m.roundingMode = none)
    (hd20 : m.getDecimals ≤ 20)
    (hneg : (ws.any fun w => decide (w < 0)) = false)
    (htot : ¬ ws.foldl (· + ·) 0 ≤ 0) :
    ∃ parts rest u,
      m.distributePre ws = some (parts, rest, u) ∧
      parts.length = ws.length ∧
      (∀ p ∈ parts, MState m.currency m.getDecimals p) ∧
      parts.map Money.amount = ws.map (partQ m.amount m.getDecimals (ws.foldl (· + ·) 0)) ∧
      MState m.currency m.getDecimals rest ∧
      rest.amount
        = m.amount - (ws.map (partQ m.amount m.getDecimals (ws.foldl (· + ·) 0))).sum ∧
      MState m.currency m.getDecimals u ∧
      u.amount = (if rest.isPositive then (1 : ℚ) else -1) * (1 / pow10 m.getDecimals) ∧
      u.amount ≠ 0 := by
  have hmst : MState m.currency m.getDecimals m := ⟨hwf, rfl, rfl, hA⟩
  cases ws with
  | nil =>
      exfalso
      exact htot le_rfl
  | cons w0 wtl =>
      have hmul : ∀ w : ℚ, m.multiply (bigDiv w ((w0 :: wtl).foldl (· + ·) 0))
          = some { m with
              amount := partQ m.amount m.getDecimals ((w0 :: wtl).foldl (· + ·) 0) w } := by
        intro w
        rw [Money.multiply]
        have h := Money.mergeAmount_eq hwf
          (m.amount * bigDiv w ((w0 :: wtl).foldl (· + ·) 0))
        rw [hrm] at h
        simp only [Option.getD_none] at h
        rw [← hrm] at h
        exact h
      have hparts : (w0 :: wtl).mapM
            (fun w => m.multiply (bigDiv w ((w0 :: wtl).foldl (· + ·) 0)))
          = some ((w0 :: wtl).map fun w =>
              { m with amount := partQ m.amount m.getDecimals ((w0 :: wtl).foldl (· + ·) 0) w }) :=
        mapM_of_some _ _ hmul (w0 :: wtl)
      obtain ⟨s, hfold, hs, hsamount⟩ :=
        sum_state (C := m.currency) (d := m.getDecimals)
          (wtl.map fun w =>
            { m with amount := partQ m.amount m.getDecimals ((w0 :: wtl).foldl (· + ·) 0) w })
          { m with amount := partQ m.amount m.getDecimals ((w0 :: wtl).foldl (· + ·) 0) w0 }
          ⟨hwf, rfl, rfl, bigRound_isDecimal _ _ _⟩
          (by
            intro p hp
            obtain ⟨w, -, rfl⟩ := List.mem_map.mp hp
            exact ⟨hwf, rfl, rfl, bigRound_isDecimal _ _ _⟩)
      have hsum : Money.sum
          ((w0 :: wtl).map fun w =>
            { m with amount := partQ m.amount m.getDecimals ((w0 :: wtl).foldl (· + ·) 0) w })
          m.currency = some s := by
        rw [List.map_cons, Money.sum]
        exact hfold
      obtain ⟨hsub, hrest⟩ := hmst.subtract_exact hs
      obtain ⟨hone, honest⟩ := hmst.mergeAmount_exact (isDecimal_one m.getDecimals)
      have hdivq : bigDiv 1 (pow10 m.getDecimals) = 1 / pow10 m.getDecimals := by
        rw [bigDiv]
        exact ((isDecimal_unit m.getDecimals).mono hd20).bigRound_eq _
      have hbase := honest.mergeAmount_exact (a := bigDiv 1 (pow10 m.getDecimals))
        (by rw [hdivq]; exact isDecimal_unit m.getDecimals)
      have hdiv : Money.divide { m with amount := (1 : ℚ) } (pow10 m.getDecimals)
          = some { { m with amount := (1 : ℚ) } with
              amount := bigDiv 1 (pow10 m.getDecimals) } := by
        rw [Money.divide, if_neg (pow10_ne_zero m.getDecimals)]
        exact hbase.1
      set rest : Money := { m with amount := m.amount - s.amount } with hrestdef
      have hu := hbase.2.mergeAmount_exact
        (a := bigDiv 1 (pow10 m.getDecimals) * (if rest.isPositive then (1 : ℚ) else -1))
        (by
          rw [hdivq]
          by_cases hpos : rest.isPositive
          · rw [if_pos hpos, mul_one]
            exact isDecimal_unit m.getDecimals
          · rw [if_neg hpos]
            have := (isDecimal_unit m.getDecimals).neg
            simpa using this)
      have humul : Money.multiply
          { { m with amount := (1 : ℚ) } with amount := bigDiv 1 (pow10 m.getDecimals) }
          (if rest.isPositive then (1 : ℚ) else -1)
          = some { { { m with amount := (1 : ℚ) } with
              amount := bigDiv 1 (pow10 m.getDecimals) } with
              amount := bigDiv 1 (pow10 m.getDecimals)
                * (if rest.isPositive then (1 : ℚ) else -1) } := by
        rw [Money.multiply]
        exact hu.1
      refine ⟨(w0 :: wtl).map fun w =>
          { m with amount := partQ m.amount m.getDecimals ((w0 :: wtl).foldl (· + ·) 0) w },
        rest,
        { { { m with amount := (1 : ℚ) } with
            amount := bigDiv 1 (pow10 m.getDecimals) } with
            amount := bigDiv 1 (pow10 m.getDecimals)
              * (if rest.isPositive then (1 : ℚ) else -1) },
        ?_, ?_, ?_, ?_, hrest, ?_, hu.2, ?_, ?_⟩
      · rw [Money.distributePre, hneg]
        simp only [Bool.false_eq_true, if_false]
        rw [if_neg htot]
        simp only [Option.bind_eq_bind]
        rw [hparts]
        simp only [Option.some_bind]
        rw [hsum]
        simp only [Option.some_bind]
        rw [hsub]
        simp only [Option.some_bind]
        rw [hone]
        simp only [Option.some_bind]
        rw [hdiv]
        simp only [Option.some_bind]
        rw [humul]
        simp only [Option.some_bind]
      · simp
      · intro p hp
        obtain ⟨w, -, rfl⟩ := List.mem_map.mp hp
        exact ⟨hwf, rfl, rfl, bigRound_isDecimal _ _ _⟩
      · rw [List.map_map]
        rfl
      · rw [hrestdef]
        show m.amount - s.amount = _
        rw [hsamount, List.map_map, List.map_cons, List.sum_cons]
        rfl
      · show bigDiv 1 (pow10 m.getDecimals) * (if rest.isPositive then (1 : ℚ) else -1) = _
        rw [hdivq, mul_comm]
      · show bigDiv 1 (pow10 m.getDecimals) * (if rest.isPositive then (1 : ℚ) else -1) ≠ 0
        rw [hdivq]
        have hunit : (1 : ℚ) / pow10 m.getDecimals ≠ 0 := by
          have := pow10_pos m.getDecimals
          positivity
        by_cases hpos : rest.isPositive
        · rw [if_pos hpos, mul_one]
          exact hunit
        · rw [if_neg hpos]
          intro hzero
          apply hunit
          have : (1 : ℚ) / pow10 m.getDecimals * (-1) * (-1) = 0 * (-1) := by rw [hzero]
          simpa using this

theorem loopDist_done {ws : List ℚ} {u : Money} {fuel : ℕ} {parts : List Money}
    {rest : Money} {i steps : ℕ} (hz : rest.isZero = true) :
    loopDist ws u (fuel + 1) parts rest i steps = some (parts, steps) := by
  rw [loopDist, hz]
  simp

theorem loopDist_step_skip {ws : List ℚ} {u : Money} {fuel : ℕ} {parts : List Money}
    {rest : Money} {i steps : ℕ} {w : ℚ} {p : Money}
    (hz : rest.isZero = false) (hw : ws[i]? = some w) (hp : parts[i]? = some p)
    (hw0 : w = 0) :
    loopDist ws u (fuel + 1) parts rest i steps
      = loopDist ws u fuel parts rest ((i + 1) % ws.length) steps := by
  rw [loopDist, hz, hw, hp]
  simp [hw0]

theorem loopDist_step_corr {ws : List ℚ} {u : Money} {fuel : ℕ} {parts : List Money}
    {rest : Money} {i steps : ℕ} {w : ℚ} {p p2 rest2 : Money}
    (hz : rest.isZero = false) (hw : ws[i]? = some w) (hp : parts[i]? = some p)
    (hw0 : w ≠ 0) (hadd : p.add u = some p2) (hsub : rest.subtract u = some rest2) :
    loopDist ws u (fuel + 1) parts rest i steps
      = loopDist ws u fuel (parts.set i p2) rest2 ((i + 1) % ws.length) (steps + 1) := by
  rw [loopDist, hz, hw, hp]
  simp [hw0, hadd, hsub]

theorem loopDist_progress (C : String) (d : ℕ) (ws : List ℚ) (u : Money)
    (hu : MState C d u) :
    ∀ (t : ℕ) (parts : List Money) (rest : Money) (i steps : ℕ),
      parts.length = ws.length →
      (∀ p ∈ parts, MState C d p) →
      MState C d rest →
      rest.amount ≠ 0 →
      i < ws.length →
      (∃ j w, ws[j]? = some w ∧ w ≠ 0 ∧ (if i ≤ j then j - i else j + ws.length - i) = t) →
      ∃ (c : ℕ) (parts' : List Money) (i' : ℕ),
        (∀ fuel, loopDist ws u (fuel + c) parts rest i steps
            = loopDist ws u fuel parts'
                { rest with amount := rest.amount - u.amount } i' (steps + 1)) ∧
        parts'.length = ws.length ∧ (∀ p ∈ parts', MState C d p) ∧ i' < ws.length := by
  intro t
  induction t with
  | zero =>
      intro parts rest i steps hlen hpst hrest hrest0 hi hj
      obtain ⟨j, w, hjw, hw0, hdist⟩ := hj
      have hij : j = i := by
        by_cases hle : i ≤ j
        · rw [if_pos hle] at hdist
          omega
        · rw [if_neg hle] at hdist
          have hjlt : j < ws.length := by
            by_contra hge
            rw [List.getElem?_eq_none (le_of_not_lt hge)] at hjw
            exact Option.noConfusion hjw
          omega
      subst hij
      obtain ⟨p, hp⟩ : ∃ p, parts[j]? = some p := by
        rw [List.getElem?_eq_getElem (hlen ▸ hi)]
        exact ⟨_, rfl⟩
      have hpstj : MState C d p := hpst p (List.getElem?_mem hp)
      obtain ⟨hadd, hpst2⟩ := hpstj.add_exact hu
      obtain ⟨hsub, hrest2⟩ := hrest.subtract_exact hu
      have hz : rest.isZero = false := by
        simp [Money.isZero, hrest0]
      refine ⟨1, parts.set j { p with amount := p.amount + u.amount }, (j + 1) % ws.length,
        ?_, ?_, ?_, ?_⟩
      · intro fuel
        exact loopDist_step_corr hz hjw hp hw0 hadd hsub
      · simp [hlen]
      · intro q hq
        rcases List.mem_or_eq_of_mem_set hq with hmem | rfl
        · exact hpst q hmem
        · exact hpst2
      · exact Nat.mod_lt _ (by omega)
  | succ t ih =>
      intro parts rest i steps hlen hpst hrest hrest0 hi hj
      obtain ⟨j, w, hjw, hw0, hdist⟩ := hj
      have hjlt : j < ws.length := by
        by_contra hge
        rw [List.getElem?_eq_none (le_of_not_lt hge)] at hjw
        exact Option.noConfusion hjw
      obtain ⟨wi, hwi⟩ : ∃ wi, ws[i]? = some wi :=
        ⟨ws[i], List.getElem?_eq_getElem hi⟩
      obtain ⟨p, hp⟩ : ∃ p, parts[i]? = some p := by
        rw [List.getElem?_eq_getElem (hlen ▸ hi)]
        exact ⟨_, rfl⟩
      have hz : rest.isZero = false := by
        simp [Money.isZero, hrest0]
      by_cases hwi0 : wi = 0
      · -- skip this index; the distance to `j` decreases by one
        have hij : i ≠ j := by
          intro he
          subst he
          rw [hwi] at hjw
          injection hjw with hww
          exact hw0 (hww ▸ hwi0)
        have hnext : (i + 1) % ws.length = if i + 1 = ws.length then 0 else i + 1 := by
          by_cases he : i + 1 = ws.length
          · rw [if_pos he, he, Nat.mod_self]
          · rw [if_neg he, Nat.mod_eq_of_lt (by omega)]
        have hi' : (i + 1) % ws.length < ws.length := Nat.mod_lt _ (by omega)
        have hdist' : (if (i + 1) % ws.length ≤ j then j - (i + 1) % ws.length
            else j + ws.length - (i + 1) % ws.length) = t := by
          rw [hnext]
          by_cases he : i + 1 = ws.length
          · simp only [if_pos he]
            rw [if_pos (Nat.zero_le j)]
            split at hdist <;> omega
          · simp only [if_neg he]
            split at hdist <;> [skip; skip] <;> split <;> omega
        obtain ⟨c, parts', i', heq, hlen', hpst', hi''⟩ :=
          ih parts rest ((i + 1) % ws.length) steps hlen hpst hrest hrest0 hi'
            ⟨j, w, hjw, hw0, hdist'⟩
        refine ⟨c + 1, parts', i', ?_, hlen', hpst', hi''⟩
        intro fuel
        have hstep : loopDist ws u (fuel + c + 1) parts rest i steps
            = loopDist ws u (fuel + c) parts rest ((i + 1) % ws.length) steps :=
          loopDist_step_skip hz hwi hp hwi0
        calc loopDist ws u (fuel + (c + 1)) parts rest i steps
            = loopDist ws u (fuel + c + 1) parts rest i steps := by
              rw [Nat.add_assoc]
          _ = loopDist ws u (fuel + c) parts rest ((i + 1) % ws.length) steps := hstep
          _ = _ := heq fuel
      · -- correction happens right here
        have hpsti : MState C d p := hpst p (List.getElem?_mem hp)
        obtain ⟨hadd, hpst2⟩ := hpsti.add_exact hu
        obtain ⟨hsub, hrest2⟩ := hrest.subtract_exact hu
        refine ⟨1, parts.set i { p with amount := p.amount + u.amount }, (i + 1) % ws.length,
          ?_, ?_, ?_, ?_⟩
        · intro fuel
          exact loopDist_step_corr hz hwi hp hwi0 hadd hsub
        · simp [hlen]
        · intro q hq
          rcases List.mem_or_eq_of_mem_set hq with hmem | rfl
          · exact hpst q hmem
          · exact hpst2
        · exact Nat.mod_lt _ (by omega)

theorem loopDist_total (C : String) (d : ℕ) (ws : List ℚ) (u : Money)
    (hu : MState C d u) (hu0 : u.amount ≠ 0) :
    ∀ (k : ℕ) (parts : List Money) (rest : Money) (i steps : ℕ),
      parts.length = ws.length →
      (∀ p ∈ parts, MState C d p) →
      MState C d rest →
      rest.amount = k * u.amount →
      i < ws.length →
      (∃ (j : ℕ) (w : ℚ), ws[j]? = some w ∧ w ≠ 0) →
      ∃ fuel parts', loopDist ws u fuel parts rest i steps = some (parts', steps + k) := by
  intro k
  induction k with
  | zero =>
      intro parts rest i steps hlen hpst hrest hk hi hj
      have hz : rest.isZero = true := by
        simp only [Money.isZero, hk, Nat.cast_zero, zero_mul]
        simp
      refine ⟨1, parts, ?_⟩
      have hdone : loopDist ws u (0 + 1) parts rest i steps = some (parts, steps) :=
        loopDist_done hz
      simpa using hdone
  | succ k ih =>
      intro parts rest i steps hlen hpst hrest hk hi hj
      obtain ⟨j, w, hjw, hw0⟩ := hj
      have hrest0 : rest.amount ≠ 0 := by
        rw [hk]
        exact mul_ne_zero (by exact_mod_cast Nat.succ_ne_zero k) hu0
      obtain ⟨c, parts', i', heq, hlen', hpst', hi'⟩ :=
        loopDist_progress C d ws u hu
          (if i ≤ j then j - i else j + ws.length - i) parts rest i steps
          hlen hpst hrest hrest0 hi ⟨j, w, hjw, hw0, rfl⟩
      have hrest' : MState C d { rest with amount := rest.amount - u.amount } :=
        ⟨hrest.1, hrest.2.1, hrest.2.2.1, hrest.2.2.2.sub hu.2.2.2⟩
      have hk' : ({ rest with amount := rest.amount - u.amount } : Money).amount
          = k * u.amount := by
        show rest.amount - u.amount = _
        rw [hk]
        push_cast
        ring
      obtain ⟨fuel', parts'', hloop⟩ :=
        ih parts' { rest with amount := rest.amount - u.amount } i' (steps + 1)
          hlen' hpst' hrest' hk' hi' ⟨j, w, hjw, hw0⟩
      refine ⟨fuel' + c, parts'', ?_⟩
      rw [heq fuel', hloop]
      congr 1
      congr 1
      omega

theorem exists_nonzero_weight (ws : List ℚ) (htot : ¬ ws.foldl (· + ·) 0 ≤ 0) :
    ∃ (j : ℕ) (w : ℚ), ws[j]? = some w ∧ w ≠ 0 := by
  by_contra hall
  push_neg at hall
  apply htot
  rw [foldl_add_init, zero_add]
  have hz : ∀ x ∈ ws, x = 0 := by
    intro x hx
    obtain ⟨j, hj⟩ := List.mem_iff_getElem?.mp hx
    exact hall j x hj
  rw [List.sum_eq_zero hz]

/-- Claim C2 (amended): for a well-formed money with the default rounding
mode, scale `d ≤ 20`, an amount representable at its scale with
`|amount| * 10^d ≤ 10^20`, and valid weights (none negative, positive total),
the reconciliation loop of the dist `distributeBy` terminates within a single
pass over the non-zero-weight indices: the number of unit-correction steps is
at most the number of non-zero weights, which is at most `N`.  (Without the
magnitude bound the single-pass property fails — see the counterexample.) -/
theorem claim_C2 (m : Money) (ws : List ℚ)
    (hwf : m.wf) (hrm : m.roundingMode = none)
    (hA : isDecimal m.amount m.getDecimals)
    (hd20 : m.getDecimals ≤ 20)
    (hbound : |m.amount| * pow10 m.getDecimals ≤ pow10 20)
    (hneg : (ws.any fun w => decide (w < 0)) = false)
    (htot : ¬ ws.foldl (· + ·) 0 ≤ 0) :
    ∃ fuel parts steps,
      m.distributeBy fuel ws = some (parts, steps) ∧
      steps ≤ ws.countP (fun w => decide (w ≠ 0)) ∧
      ws.countP (fun w => decide (w ≠ 0)) ≤ ws.length := by
  obtain ⟨parts₀, rest, u, hpre, hlen, hpmem, hpam, hrestst, hrestam, hust, huam, hu0⟩ :=
    distributePre_spec m ws hwf hA hrm hd20 hneg htot
  have htotpos : 0 < ws.foldl (· + ·) 0 := lt_of_not_le htot
  have htotne : ws.foldl (· + ·) 0 ≠ 0 := ne_of_gt htotpos
  have hpow := pow10_pos m.getDecimals
  have hrb : |rest.amount| ≤ (ws.countP fun w => decide (w ≠ 0)) * (1 / pow10 m.getDecimals) := by
    rw [hrestam]
    exact restQ_bound m.amount m.getDecimals _ ws hbound htotne rfl
  obtain ⟨n, hn⟩ := hrestst.2.2.2.mul_pow10
  have hrn : rest.amount = (n : ℚ) / pow10 m.getDecimals := by
    rw [eq_div_iff (pow10_ne_zero m.getDecimals)]
    exact hn
  have hcast : ((n.natAbs : ℕ) : ℚ) = |(n : ℚ)| := by
    push_cast [Int.cast_natAbs]
    rfl
  have hk : rest.amount = (n.natAbs : ℚ) * u.amount := by
    by_cases hpos : rest.isPositive
    · have h0 : 0 < rest.amount := by
        have := hpos
        simp only [Money.isPositive, decide_eq_true_eq] at this
        exact this
      have hnpos : 0 < (n : ℚ) := by
        have h1 : 0 < (n : ℚ) / pow10 m.getDecimals := hrn ▸ h0
        have h2 : (0:ℚ) < ((n : ℚ) / pow10 m.getDecimals) * pow10 m.getDecimals :=
          mul_pos h1 hpow
        rwa [div_mul_cancel₀ _ (pow10_ne_zero m.getDecimals)] at h2
      rw [huam, if_pos hpos, hrn, hcast, abs_of_nonneg (le_of_lt hnpos)]
      ring
    · have h0 : rest.amount ≤ 0 := by
        have := hpos
        simp only [Money.isPositive, decide_eq_true_eq, not_lt] at this
        exact this
      have hnneg : (n : ℚ) ≤ 0 := by
        have h1 : (n : ℚ) / pow10 m.getDecimals ≤ 0 := hrn ▸ h0
        have h2 := mul_le_mul_of_nonneg_right h1 (le_of_lt hpow)
        rwa [div_mul_cancel₀ _ (pow10_ne_zero m.getDecimals), zero_mul] at h2
      rw [huam, if_neg hpos, hrn, hcast, abs_of_nonpos hnneg]
      ring
  have hkK : n.natAbs ≤ ws.countP fun w => decide (w ≠ 0) := by
    have habs : |rest.amount| = (n.natAbs : ℚ) / pow10 m.getDecimals := by
      rw [hrn, abs_div, abs_of_pos hpow, hcast]
    rw [habs] at hrb
    have h2 := mul_le_mul_of_nonneg_right hrb (le_of_lt hpow)
    rw [div_mul_cancel₀ _ (pow10_ne_zero m.getDecimals)] at h2
    have h3 : ((ws.countP fun w => decide (w ≠ 0)) : ℚ) * (1 / pow10 m.getDecimals)
        * pow10 m.getDecimals = (ws.countP fun w => decide (w ≠ 0) : ℕ) := by
      field_simp
    rw [h3] at h2
    exact_mod_cast h2
  have hws_ne : ws ≠ [] := by
    intro h
    rw [h] at htot
    exact htot le_rfl
  have hipos : 0 < ws.length := List.length_pos.mpr hws_ne
  obtain ⟨fuel, parts', hloop⟩ :=
    loopDist_total m.currency m.getDecimals ws u hust hu0 n.natAbs parts₀ rest 0 0
      hlen hpmem hrestst hk hipos (exists_nonzero_weight ws htot)
  rw [Nat.zero_add] at hloop
  refine ⟨fuel, parts', n.natAbs, ?_, hkK, List.countP_le_length _⟩
  rw [Money.distributeBy, hpre]
  exact hloop

/-- Witness for C2 at a concrete input: 1 NOK over weights [1,1,1] distributes
with at most 3 correction steps. -/
theorem claim_C2_witness :
    ∃ fuel parts steps,
      Money.distributeBy fuel ⟨1, "NOK", none, none, defaultTags⟩ [1, 1, 1]
          = some (parts, steps) ∧
      steps ≤ ([1, 1, 1] : List ℚ).countP (fun w => decide (w ≠ 0)) ∧
      ([1, 1, 1] : List ℚ).countP (fun w => decide (w ≠ 0)) ≤ ([1, 1, 1] : List ℚ).length :=
  claim_C2 ⟨1, "NOK", none, none, defaultTags⟩ [1, 1, 1]
    (show (resolveDecimals none "NOK").isSome = true by with_unfolding_all decide) rfl
    (show isDecimal (1 : ℚ) 2 from ⟨100, by norm_num [pow10]⟩)
    (show (2 : ℕ) ≤ 20 by norm_num)
    (show |(1 : ℚ)| * pow10 2 ≤ pow10 20 by norm_num [pow10])
    (by with_unfolding_all decide)
    (by with_unfolding_all decide)

set_option maxRecDepth 40000 in
/-- Counterexample to C2 as stated: for the huge (but exactly representable)
amount 10^19 NOK and weights [1,1,1], the 20-decimal-place division error
makes the rest 10 units, so the dist loop performs 10 correction steps over
3 weights (more than three passes), and the index.ts loop walks past the end
of the array and crashes.  "A single pass always suffices" is false. -/
theorem claim_C2_counterexample :
    ((Money.distributeBy 100 ⟨10^19, "NOK", none, none, defaultTags⟩ [1, 1, 1]).map
        (fun r => r.2) = some 10) ∧
    (Money.distributeBySrc 100 ⟨10^19, "NOK", none, none, defaultTags⟩ [1, 1, 1] = none) ∧
    10 > ([1, 1, 1] : List ℚ).length := by
  refine ⟨?_, ?_, ?_⟩ <;> with_unfolding_all decide

set_option maxRecDepth 8000 in
/-- Claim C1 evaluated at the input 0.10 NOK with weights [0,1,1,1] (where one
reconciliation unit is owed): the `src/index.ts` implementation hands the unit
to the zero-weight index — its parts are [0.01, 0.03, 0.03, 0.03] — while the
compiled dist implementation (whose behaviour the repository's own test suite
asserts) keeps the zero-weight part at exactly 0, gives [0, 0.04, 0.03, 0.03],
and both still sum exactly to the original amount. -/
theorem claim_C1 :
    ((Money.distributeBySrc 10 ⟨1/10, "NOK", none, none, defaultTags⟩ [0, 1, 1, 1]).map
        (fun r => r.1.map Money.amount) = some [1/100, 3/100, 3/100, 3/100]) ∧
    ((Money.distributeBy 10 ⟨1/10, "NOK", none, none, defaultTags⟩ [0, 1, 1, 1]).map
        (fun r => r.1.map Money.amount) = some [0, 1/25, 3/100, 3/100]) ∧
    ((1/100 : ℚ) ≠ 0) ∧
    ((0 : ℚ) + 1/25 + 3/100 + 3/100 = 1/10) ∧
    ((1/100 : ℚ) + 3/100 + 3/100 + 3/100 = 1/10) := by
  refine ⟨?_, ?_, ?_, ?_, ?_⟩ <;> with_unfolding_all decide
